import Mathlib

/-!
Verification of `src/monitor/filter_color-green.py`, a PlatformIO device
monitor filter (class `MyFilter`, name "color-green").

The filter holds one piece of mutable state, `self.buffer : str`, initialized
to `""` in `__init__`.  Its two hooks are:

    def tx(self, text):
        print(f"TX: {text}")
        return text

    def rx(self, text):
        self.buffer += text
        if '\n' in self.buffer:
            line, self.buffer = self.buffer.split("\n", 1)
            return f"\033[32m{line}\033[0m\n"
        return ""

Strings are embedded as `List Char`; the mutable `self.buffer` becomes an
explicit `FilterState` threaded through each call.  Each hook returns its
result string together with the updated state; `tx` additionally returns the
line it prints (its logging side effect).
-/

namespace MyFilter

/-- The state of a `MyFilter` instance: the single field `self.buffer`. -/
structure FilterState where
  buffer : List Char
deriving DecidableEq, Repr

/-- `__init__` sets `self.buffer = ""`. -/
def initState : FilterState := ⟨[]⟩

/-- The escape character `\033` (ESC). -/
def ESC : Char := Char.ofNat 27

/-- The ANSI set-green-foreground prefix `"\033[32m"`. -/
def green : List Char := [ESC, '[', '3', '2', 'm']

/-- The ANSI reset suffix `"\033[0m"`. -/
def reset : List Char := [ESC, '[', '0', 'm']

/-- Python's `s.split("\n", 1)` under the guard `'\n' in s`: the pair of the
text strictly before the first `'\n'` and the text strictly after it. -/
def breakNL : List Char → List Char × List Char
  | [] => ([], [])
  | c :: rest =>
    if c = '\n' then ([], rest)
    else
      let p := breakNL rest
      (c :: p.1, p.2)

/-- Python's `s.split("\n", 1)` in full: a two-element list when `'\n'` occurs
in `s`, otherwise the one-element list `[s]`. -/
def pySplitNL1 (s : List Char) : List (List Char) :=
  if '\n' ∈ s then [(breakNL s).1, (breakNL s).2] else [s]

/-- Python's tuple unpacking `a, b = xs`: raises `ValueError` unless `xs` has
exactly two elements. -/
def unpack2 (xs : List (List Char)) : Except String (List Char × List Char) :=
  match xs with
  | [a, b] => .ok (a, b)
  | _ => .error "ValueError"

/-- `MyFilter.tx`.  Returns the result string, the unchanged state, and the
line `print` writes to stdout. -/
def tx (st : FilterState) (text : List Char) :
    (List Char × FilterState) × List Char :=
  ((text, st), ("TX: ").data ++ text)

/-- `MyFilter.rx`: append `text` to the buffer; if the grown buffer contains a
`'\n'`, split off the first line, keep the remainder, and return the line
wrapped in green; otherwise return the empty string. -/
def rx (st : FilterState) (text : List Char) : List Char × FilterState :=
  let buf := st.buffer ++ text
  if '\n' ∈ buf then
    (green ++ (breakNL buf).1 ++ reset ++ ['\n'], ⟨(breakNL buf).2⟩)
  else
    ([], ⟨buf⟩)

/-- `MyFilter.rx` with Python's fallible operations made explicit: the
`split`/tuple-unpacking pair is routed through `unpack2`, so a `ValueError`
would surface as `.error`. -/
def rxE (st : FilterState) (text : List Char) :
    Except String (List Char × FilterState) :=
  let buf := st.buffer ++ text
  if '\n' ∈ buf then
    match unpack2 (pySplitNL1 buf) with
    | .ok (line, rest) => .ok (green ++ line ++ reset ++ ['\n'], ⟨rest⟩)
    | .error e => .error e
  else
    .ok ([], ⟨buf⟩)

/-- `MyFilter.tx` with the (non-existent) error path made explicit. -/
def txE (st : FilterState) (text : List Char) :
    Except String ((List Char × FilterState) × List Char) :=
  .ok (tx st text)

/-- Feed a list of inbound chunks through `rx` in order, collecting the
returned strings and the final state. -/
def runRx (st : FilterState) : List (List Char) → List (List Char) × FilterState
  | [] => ([], st)
  | c :: cs =>
    let p := rx st c
    let q := runRx p.2 cs
    (p.1 :: q.1, q.2)

/-- `Bool` test "this character is not a newline", used with
`takeWhile`/`dropWhile` to describe the split at the first `'\n'`. -/
def notNL (c : Char) : Bool := !(c == '\n')

/-- Remove the ANSI wrapper from a nonempty `rx` result: drop the five-char
green prefix and the four-char reset that precedes the final newline, keeping
the newline.  Maps the empty string to the empty string. -/
def unwrap (out : List Char) : List Char :=
  (List.take (out.length - (reset.length + 1)) out).drop green.length
    ++ List.drop (out.length - 1) out

/-- The newline-terminated portion of a stream: everything up to and including
the last `'\n'`, empty when there is no newline. -/
def terminatedPortion (s : List Char) : List Char :=
  (s.reverse.dropWhile notNL).reverse

/-- A string is empty or ends with a newline. -/
def endsNL (l : List Char) : Prop := l = [] ∨ ∃ l', l = l' ++ ['\n']

/-! ### Helper lemmas about the split at the first newline -/

lemma breakNL_fst_no_nl (s : List Char) : '\n' ∉ (breakNL s).1 := by
  induction s with
  | nil => simp [breakNL]
  | cons c rest ih =>
    by_cases hc : c = '\n'
    · simp [breakNL, hc]
    · simp [breakNL, hc]
      exact ⟨fun h => hc h.symm, ih⟩

lemma breakNL_eq (s : List Char) (h : '\n' ∈ s) :
    (breakNL s).1 ++ '\n' :: (breakNL s).2 = s := by
  induction s with
  | nil => cases h
  | cons c rest ih =>
    by_cases hc : c = '\n'
    · simp [breakNL, hc]
    · have hr : '\n' ∈ rest := by
        rcases List.mem_cons.mp h with h1 | h2
        · exact absurd h1.symm hc
        · exact h2
      simp [breakNL, hc, ih hr]

lemma breakNL_append_no_nl (p q : List Char) (hp : '\n' ∉ p) :
    breakNL (p ++ '\n' :: q) = (p, q) := by
  induction p with
  | nil => simp [breakNL]
  | cons c rest ih =>
    have hc : ¬ c = '\n' := fun h => hp (by simp [h])
    have hrest : '\n' ∉ rest := fun h => hp (by simp [h])
    simp [breakNL, hc, ih hrest]

lemma breakNL_fst_takeWhile (s : List Char) :
    (breakNL s).1 = s.takeWhile notNL := by
  induction s with
  | nil => simp [breakNL]
  | cons c rest ih =>
    by_cases hc : c = '\n'
    · simp [breakNL, hc, List.takeWhile, notNL]
    · have : notNL c = true := by simp [notNL, hc]
      simp [breakNL, hc, List.takeWhile, this, ih]

lemma breakNL_snd_dropWhile (s : List Char) :
    (breakNL s).2 = (s.dropWhile notNL).tail := by
  induction s with
  | nil => simp [breakNL]
  | cons c rest ih =>
    by_cases hc : c = '\n'
    · simp [breakNL, hc, List.dropWhile, notNL]
    · have : notNL c = true := by simp [notNL, hc]
      simp [breakNL, hc, List.dropWhile, this, ih]

/-! ### Helper lemmas about `unwrap`, `endsNL` and `terminatedPortion` -/

lemma unwrap_nil : unwrap [] = [] := rfl

lemma unwrap_wrapped (line : List Char) :
    unwrap (green ++ line ++ reset ++ ['\n']) = line ++ ['\n'] := by
  have hg : green.length = 5 := rfl
  have hr : reset.length = 4 := rfl
  have hlen : (green ++ line ++ reset ++ ['\n']).length = line.length + 10 := by
    simp [hg, hr]; omega
  have hsplit : green ++ line ++ reset ++ ['\n']
      = (green ++ line) ++ (reset ++ ['\n']) := by
    simp [List.append_assoc]
  have htake : List.take (line.length + 5) (green ++ line ++ reset ++ ['\n'])
      = green ++ line := by
    rw [hsplit]
    have : line.length + 5 = (green ++ line).length := by simp [hg]; omega
    rw [this, List.take_left]
  have hsplit2 : green ++ line ++ reset ++ ['\n']
      = ((green ++ line) ++ reset) ++ ['\n'] := rfl
  have hdrop : List.drop (line.length + 9) (green ++ line ++ reset ++ ['\n'])
      = ['\n'] := by
    rw [hsplit2]
    have : line.length + 9 = ((green ++ line) ++ reset).length := by
      simp [hg, hr]; omega
    rw [this, List.drop_left]
  have hdropg : (green ++ line).drop green.length = line := List.drop_left green line
  unfold unwrap
  rw [hlen]
  have h1 : line.length + 10 - (reset.length + 1) = line.length + 5 := by
    rw [hr]; omega
  have h2 : line.length + 10 - 1 = line.length + 9 := by omega
  rw [h1, h2, htake, hdrop, hdropg]

lemma endsNL_append {a b : List Char} (ha : endsNL a) (hb : endsNL b) :
    endsNL (a ++ b) := by
  rcases hb with hb | ⟨b', rfl⟩
  · rw [hb, List.append_nil]; exact ha
  · exact Or.inr ⟨a ++ b', by rw [List.append_assoc]⟩

lemma dropWhile_append_all (p : Char → Bool) (l₁ l₂ : List Char)
    (h : ∀ c ∈ l₁, p c = true) :
    List.dropWhile p (l₁ ++ l₂) = List.dropWhile p l₂ := by
  induction l₁ with
  | nil => rfl
  | cons a t ih =>
    have ha : p a = true := h a (by simp)
    simp only [List.cons_append, List.dropWhile, ha]
    exact ih (fun c hc => h c (by simp [hc]))

lemma terminatedPortion_append {E B : List Char}
    (hE : endsNL E) (hB : '\n' ∉ B) :
    terminatedPortion (E ++ B) = E := by
  have hall : ∀ c ∈ B.reverse, notNL c = true := by
    intro c hc
    have : c ∈ B := List.mem_reverse.mp hc
    have hne : ¬ c = '\n' := fun h => hB (h ▸ this)
    simp [notNL, hne]
  unfold terminatedPortion
  rw [List.reverse_append, dropWhile_append_all notNL B.reverse E.reverse hall]
  rcases hE with hE | ⟨E', rfl⟩
  · simp [hE]
  · have hrev : (E' ++ ['\n']).reverse = '\n' :: E'.reverse := by simp
    rw [hrev]
    have hnl : notNL '\n' = false := by simp [notNL]
    simp [List.dropWhile, hnl]

lemma count_nl_eq_zero {l : List Char} (h : '\n' ∉ l) :
    l.count '\n' = 0 := List.count_eq_zero.mpr h

/-! ### The main stream invariant

Starting from a buffer without a newline, feeding chunks that each contain at
most one newline keeps the buffer newline-free, and the concatenation of the
unwrapped outputs together with the final buffer reconstructs the input
stream. -/

lemma runRx_general (chunks : List (List Char)) :
    ∀ st : FilterState, '\n' ∉ st.buffer →
    (∀ c ∈ chunks, c.count '\n' ≤ 1) →
    '\n' ∉ (runRx st chunks).2.buffer ∧
    endsNL (List.flatten (List.map unwrap (runRx st chunks).1)) ∧
    List.flatten (List.map unwrap (runRx st chunks).1) ++ (runRx st chunks).2.buffer
      = st.buffer ++ List.flatten chunks := by
  induction chunks with
  | nil =>
    intro st hb _
    refine ⟨hb, Or.inl rfl, by simp [runRx]⟩
  | cons c cs ih =>
    intro st hb hc
    have hc1 : c.count '\n' ≤ 1 := hc c (by simp)
    have hcs : ∀ d ∈ cs, d.count '\n' ≤ 1 := fun d hd => hc d (by simp [hd])
    by_cases hmem : '\n' ∈ st.buffer ++ c
    · -- a complete line is emitted
      set buf := st.buffer ++ c with hbuf
      set line := (breakNL buf).1 with hline
      set rest := (breakNL buf).2 with hrest
      have hsplit : line ++ '\n' :: rest = buf := breakNL_eq buf hmem
      have hlineno : '\n' ∉ line := breakNL_fst_no_nl buf
      have hbufcount : buf.count '\n' ≤ 1 := by
        rw [hbuf, List.count_append, count_nl_eq_zero hb]
        simpa using hc1
      have hrestno : '\n' ∉ rest := by
        intro hmem'
        have hcnt := congrArg (List.count '\n') hsplit
        rw [List.count_append, List.count_cons_self,
          count_nl_eq_zero hlineno] at hcnt
        have hpos : 0 < rest.count '\n' := List.count_pos_iff.mpr hmem'
        omega
      have hrx : rx st c = (green ++ line ++ reset ++ ['\n'], ⟨rest⟩) := by
        simp only [rx, ← hbuf, if_pos hmem, ← hline, ← hrest]
      obtain ⟨ih1, ih2, ih3⟩ := ih ⟨rest⟩ hrestno hcs
      have hrun : runRx st (c :: cs)
          = ((green ++ line ++ reset ++ ['\n']) :: (runRx ⟨rest⟩ cs).1,
             (runRx ⟨rest⟩ cs).2) := by
        simp only [runRx, hrx]
      rw [hrun]
      refine ⟨ih1, ?_, ?_⟩
      · simp only [List.map_cons, List.flatten_cons, unwrap_wrapped]
        exact endsNL_append (Or.inr ⟨line, rfl⟩) ih2
      · simp only [List.map_cons, List.flatten_cons, unwrap_wrapped,
          List.flatten_cons]
        calc (line ++ ['\n']) ++ List.flatten (List.map unwrap (runRx ⟨rest⟩ cs).1)
              ++ (runRx ⟨rest⟩ cs).2.buffer
            = (line ++ ['\n'])
              ++ (List.flatten (List.map unwrap (runRx ⟨rest⟩ cs).1)
                ++ (runRx ⟨rest⟩ cs).2.buffer) := by
              rw [List.append_assoc]
          _ = (line ++ ['\n']) ++ (rest ++ List.flatten cs) := by rw [ih3]
          _ = (line ++ '\n' :: rest) ++ List.flatten cs := by simp
          _ = buf ++ List.flatten cs := by rw [hsplit]
          _ = st.buffer ++ List.flatten (c :: cs) := by
              rw [hbuf, List.flatten_cons, List.append_assoc]
    · -- no newline yet: the buffer just grows
      have hrx : rx st c = ([], ⟨st.buffer ++ c⟩) := by
        simp only [rx, if_neg hmem]
      obtain ⟨ih1, ih2, ih3⟩ := ih ⟨st.buffer ++ c⟩ hmem hcs
      have hrun : runRx st (c :: cs)
          = ([] :: (runRx ⟨st.buffer ++ c⟩ cs).1,
             (runRx ⟨st.buffer ++ c⟩ cs).2) := by
        simp only [runRx, hrx]
      rw [hrun]
      refine ⟨ih1, ?_, ?_⟩
      · simpa [unwrap_nil] using ih2
      · simp only [List.map_cons, List.flatten_cons, unwrap_nil, List.nil_append]
        rw [ih3]
        simp [List.append_assoc]

end MyFilter

namespace MyFilter

/-! ### Claim theorems -/

/-- Claim C1: for every string `text` and every prior buffer state, `rx`
appends `text` to the buffer; if the resulting buffer contains at least one
newline, it splits the buffer at the FIRST newline into the line before it
(newline excluded) and the remainder after it, sets the buffer to the
remainder, and returns the line wrapped as green prefix + line + reset +
newline; otherwise it returns the empty string and keeps the grown buffer. -/
theorem rx_appends_and_splits_first_newline (st : FilterState) (text : List Char) :
    rx st text =
      if '\n' ∈ st.buffer ++ text then
        (green ++ (st.buffer ++ text).takeWhile notNL ++ reset ++ ['\n'],
         ⟨((st.buffer ++ text).dropWhile notNL).tail⟩)
      else
        ([], ⟨st.buffer ++ text⟩) := by
  by_cases h : '\n' ∈ st.buffer ++ text
  · simp [rx, h, breakNL_fst_takeWhile, breakNL_snd_dropWhile]
  · simp [rx, h]

/-- Claim C2, counterexample: with prior buffer `"x"` and input `"a\n"`
(exactly one newline, at position 1), `rx` returns the buffered prefix as part
of the line, not `"\x1b[32m" ++ "a" ++ "\x1b[0m\n"` as the claim asserts for
every prior buffer state. -/
theorem rx_single_newline_refuted :
    (rx ⟨['x']⟩ ['a', '\n']).1 ≠ green ++ ['a'] ++ reset ++ ['\n'] := by
  decide

/-- Claim C2, amended: for all strings `s = u ++ '\n' :: v` containing exactly
one newline (so `u = s[:i]` and `v = s[i+1:]` are newline-free) and every
prior buffer `b` containing no newline, `rx s` returns the green wrapping of
`b ++ s[:i]` and the buffer after the call equals `s[i+1:]`. -/
theorem rx_single_newline (b u v : List Char)
    (hb : '\n' ∉ b) (hu : '\n' ∉ u) (hv : '\n' ∉ v) :
    rx ⟨b⟩ (u ++ '\n' :: v) = (green ++ (b ++ u) ++ reset ++ ['\n'], ⟨v⟩) := by
  have hbu : '\n' ∉ b ++ u := by
    intro h
    rcases List.mem_append.mp h with h | h
    exacts [hb h, hu h]
  have hbuf : b ++ (u ++ '\n' :: v) = (b ++ u) ++ '\n' :: v := by
    simp [List.append_assoc]
  have hmem : '\n' ∈ (b ++ u) ++ '\n' :: v := by simp
  simp only [rx, hbuf, if_pos hmem, breakNL_append_no_nl (b ++ u) v hbu]

/-- Witness for the amended C2 at `b = "x"`, `u = "a"`, `v = "b"`. -/
theorem rx_single_newline_witness :
    rx ⟨['x']⟩ (['a'] ++ '\n' :: ['b'])
      = (green ++ (['x'] ++ ['a']) ++ reset ++ ['\n'], ⟨['b']⟩) :=
  rx_single_newline ['x'] ['a'] ['b'] (by decide) (by decide) (by decide)

/-- Claim C3, counterexample: one `rx` call from construction with input
`"a\nb\n"` leaves the buffer equal to `"b\n"`, which contains a newline, so
the claimed invariant "no newline remains in the buffer between calls"
fails. -/
theorem buffer_newline_free_refuted :
    '\n' ∈ (rx initState ['a', '\n', 'b', '\n']).2.buffer := by
  decide

/-- Claim C3, amended: starting from construction (empty buffer), as long as
every inbound chunk fed to `rx` contains at most one newline, the buffer
between calls contains no newline. -/
theorem buffer_newline_free (chunks : List (List Char))
    (h : ∀ c ∈ chunks, c.count '\n' ≤ 1) :
    '\n' ∉ (runRx initState chunks).2.buffer :=
  (runRx_general chunks initState (by simp [initState]) h).1

/-- Witness for the amended C3 on the chunk sequence `["a\n", "b"]`. -/
theorem buffer_newline_free_witness :
    '\n' ∉ (runRx initState [['a', '\n'], ['b']]).2.buffer :=
  buffer_newline_free [['a', '\n'], ['b']] (by decide)

/-- Claim C4, counterexample: feeding the single chunk `"a\nb\n"` yields
(after unwrapping) only `"a\n"`, while the newline-terminated portion of the
input stream is `"a\nb\n"`; the claimed reconstruction fails for chunk
sequences with more than one newline in a chunk. -/
theorem rx_reconstruction_refuted :
    (List.map unwrap (runRx initState [['a', '\n', 'b', '\n']]).1).flatten
      ≠ terminatedPortion (List.flatten [['a', '\n', 'b', '\n']]) := by
  decide

/-- Claim C4, amended: for every finite sequence of inbound chunks each
containing at most one newline, fed to `rx` from an empty buffer, the
concatenation of the returned values with the ANSI wrapper removed from each
equals the newline-terminated portion of the concatenated input stream. -/
theorem rx_reconstruction (chunks : List (List Char))
    (h : ∀ c ∈ chunks, c.count '\n' ≤ 1) :
    (List.map unwrap (runRx initState chunks).1).flatten
      = terminatedPortion chunks.flatten := by
  obtain ⟨h1, h2, h3⟩ := runRx_general chunks initState (by simp [initState]) h
  have h3' : (List.map unwrap (runRx initState chunks).1).flatten
      ++ (runRx initState chunks).2.buffer = chunks.flatten := by
    simpa [initState] using h3
  rw [← h3', terminatedPortion_append h2 h1]

/-- Witness for the amended C4 on the chunk sequence `["a", "b\nc"]`. -/
theorem rx_reconstruction_witness :
    (List.map unwrap (runRx initState [['a'], ['b', '\n', 'c']]).1).flatten
      = terminatedPortion (List.flatten [['a'], ['b', '\n', 'c']]) :=
  rx_reconstruction [['a'], ['b', '\n', 'c']] (by decide)

/-- Claim C5: from an empty buffer, `rx "a\nb\n"` returns only the first line
colorized, `"\x1b[32ma\x1b[0m\n"`, and leaves `"b\n"` in the buffer. -/
theorem rx_multiple_newlines_first_only :
    rx initState ['a', '\n', 'b', '\n']
      = (green ++ ['a'] ++ reset ++ ['\n'], ⟨['b', '\n']⟩) := by
  decide

/-- Claim C6, counterexample: with the (reachable) prior buffer `"b\n"` and
a newline-free input `"c"`, `rx` returns a nonempty string, refuting the
claim that it returns `""` for every prior buffer state. -/
theorem rx_no_newline_refuted :
    (rx ⟨['b', '\n']⟩ ['c']).1 ≠ [] := by
  decide

/-- Claim C6, amended: for all newline-free inputs `s` and every prior buffer
`b` containing no newline, `rx s` returns the empty string and the buffer
after the call equals `b ++ s`. -/
theorem rx_no_newline (b s : List Char) (hb : '\n' ∉ b) (hs : '\n' ∉ s) :
    rx ⟨b⟩ s = ([], ⟨b ++ s⟩) := by
  have hmem : '\n' ∉ b ++ s := by
    intro h
    rcases List.mem_append.mp h with h | h
    exacts [hb h, hs h]
  simp [rx, hmem]

/-- Witness for the amended C6 at `b = "x"`, `s = "y"`. -/
theorem rx_no_newline_witness :
    rx ⟨['x']⟩ ['y'] = ([], ⟨['x', 'y']⟩) :=
  rx_no_newline ['x'] ['y'] (by decide) (by decide)

/-- Claim C7: `tx` returns its input unchanged (identity law), and its only
side effect is logging the trace line `"TX: " ++ text`. -/
theorem tx_identity (st : FilterState) (text : List Char) :
    (tx st text).1.1 = text ∧ (tx st text).2 = ("TX: ").data ++ text :=
  ⟨rfl, rfl⟩

/-- Claim C8: both hooks are total — with Python's fallible operations made
explicit, `rxE` and `txE` return `.ok` on every input and buffer state (and
agree with `rx` and `tx`); no error branch is reachable. -/
theorem tx_rx_total (st : FilterState) (text : List Char) :
    rxE st text = Except.ok (rx st text)
      ∧ txE st text = Except.ok (tx st text) := by
  refine ⟨?_, rfl⟩
  by_cases h : '\n' ∈ st.buffer ++ text
  · simp [rxE, rx, pySplitNL1, unpack2, h]
  · simp [rxE, rx, h]

/-- Claim C9 (frame property): `tx` leaves the buffer state unchanged. -/
theorem tx_frame (st : FilterState) (text : List Char) :
    (tx st text).1.2 = st :=
  rfl

/-- Claim C10: every nonempty `rx` result has exactly the form
green prefix + line + reset + newline, where the line contains no newline. -/
theorem rx_output_shape (st : FilterState) (text : List Char)
    (h : (rx st text).1 ≠ []) :
    ∃ line, (rx st text).1 = green ++ line ++ reset ++ ['\n'] ∧ '\n' ∉ line := by
  by_cases hmem : '\n' ∈ st.buffer ++ text
  · refine ⟨(breakNL (st.buffer ++ text)).1, ?_, breakNL_fst_no_nl _⟩
    simp [rx, hmem]
  · exact absurd (by simp [rx, hmem]) h

/-- Witness for C10 at the empty buffer and input `"a\n"`. -/
theorem rx_output_shape_witness :
    ∃ line, (rx initState ['a', '\n']).1 = green ++ line ++ reset ++ ['\n']
      ∧ '\n' ∉ line :=
  rx_output_shape initState ['a', '\n'] (by decide)

end MyFilter
